import Mathlib

/-!
Shallow embedding of `backend/utils/contextual_suggestions.py`: an n-gram
(trigram) next-word suggestion engine over a chat-history corpus.

Modelling conventions:
* Python strings are Lean `String`s; tokens are `List Char` internally.
* `str.lower` and the character classes of `re.sub(r"[^a-z0-9\s]", "", ·)`
  and `str.split()` are modelled on their ASCII fragment (`pyLower`,
  `keepChar`, `isSpaceChar`); the source applies the same whitespace class
  on both the removal side and the split side, and so does the embedding.
* `collections.Counter` and the `defaultdict(Counter)` model are
  insertion-ordered association lists, matching CPython's dict
  insertion-order guarantee; incrementing an existing key keeps its
  position, a new key is appended at the end.
* `Counter.most_common(1)` (via `heapq.nlargest`, which is stable: among
  tied counts the earliest-inserted entry wins) is `mostCommon1`.
* The chat-history file is `FileData`: `missing` (path does not exist),
  `invalid` (exists, but `json.loads` raises), or `records items` where
  each record is `Option String` — `some msg` when the `"message"` key is
  present, `none` when absent (`item.get("message", "")` then defaults to
  the empty string).  Fallible paths return `Except String`; the error
  value names the Python exception the corresponding line raises.
* The `defaultdict` access `model[...]` in `autocomplete` is additionally
  modelled state-passingly (`autocompleteS`) to express that the walk
  never inserts the default value, never mutates the model, and never
  raises on an absent key.
-/

namespace Rephrase

/-- Model order: trigram model (`N = 3` in the source). -/
def N : Nat := 3

/-- A token: one word as a list of characters. -/
abbrev Token := List Char

/-- ASCII fragment of the whitespace class used by both `\s` in the
cleaning regex and `str.split()`. -/
def isSpaceChar (c : Char) : Bool :=
  c.toNat = 32 || c.toNat = 9 || c.toNat = 10 || c.toNat = 13 ||
  c.toNat = 11 || c.toNat = 12

/-- Characters that survive the cleaning regex outside whitespace:
lowercase ASCII letters and digits. -/
def isLowerDigit (c : Char) : Bool :=
  (97 ≤ c.toNat && c.toNat ≤ 122) || (48 ≤ c.toNat && c.toNat ≤ 57)

/-- ASCII fragment of Python `str.lower` applied characterwise. -/
def pyLower (c : Char) : Char :=
  if 65 ≤ c.toNat && c.toNat ≤ 90 then Char.ofNat (c.toNat + 32) else c

/-- Characters kept by `re.sub(r"[^a-z0-9\s]", "", text)`. -/
def keepChar (c : Char) : Bool :=
  isLowerDigit c || isSpaceChar c

/-- One step of `words`: the first character `c` of the input is not
whitespace; `cs` is the rest of the input and `r = words cs`. -/
def consHead (c : Char) (cs : List Char) (r : List (List Char)) :
    List (List Char) :=
  match cs with
  | [] => [[c]]
  | d :: _ =>
    if isSpaceChar d then [c] :: r
    else
      match r with
      | [] => [[c]]
      | w :: ws => (c :: w) :: ws

/-- Python `str.split()`: split on runs of whitespace, dropping empty
pieces. -/
def words : List Char → List (List Char)
  | [] => []
  | c :: cs =>
    if isSpaceChar c then words cs
    else consHead c cs (words cs)

/-- Normalization at the character-list level: lowercase, strip
characters outside `[a-z0-9\s]`, split on whitespace. -/
def normalizeL (l : List Char) : List Token :=
  words ((l.map pyLower).filter keepChar)

/-- The source's `normalize(text)`: the token list as strings. -/
def normalize (s : String) : List String :=
  (normalizeL s.data).map (fun w => String.mk w)

/-- A `collections.Counter` over tokens: insertion-ordered association
list from token to count. -/
abbrev Counter := List (Token × Nat)

/-- An n-gram context: the `N - 1` tokens used as a model key. -/
abbrev Context := List Token

/-- The continuation model: insertion-ordered association list from
context to its counter (the `defaultdict(Counter)` contents). -/
abbrev Model := List (Context × Counter)

/-- Counter increment `counter[w] += 1`: increment in place, appending a
new key at the end (CPython dict order). -/
def counterIncr (c : Counter) (w : Token) : Counter :=
  match c with
  | [] => [(w, 1)]
  | (w0, n) :: rest =>
    if w0 = w then (w0, n + 1) :: rest else (w0, n) :: counterIncr rest w

/-- Model update `model[ctx][w] += 1` on the `defaultdict(Counter)`. -/
def modelAdd (m : Model) (ctx : Context) (w : Token) : Model :=
  match m with
  | [] => [(ctx, [(w, 1)])]
  | (k, c) :: rest =>
    if k = ctx then (k, counterIncr c w) :: rest
    else (k, c) :: modelAdd rest ctx w

/-- Association-list lookup (value equality on context keys, as for
Python tuples). -/
def modelFind (m : Model) (k : Context) : Option Counter :=
  match m with
  | [] => none
  | (k0, c) :: rest => if k0 = k then some c else modelFind rest k

/-- Containment test `ctx in model` (`__contains__`: no default
insertion). -/
def modelContains (m : Model) (k : Context) : Bool :=
  (modelFind m k).isSome

/-- Sliding of the width-`N` window over one sentence, recording each
(context, next-word) observation.  Python's `range(len(tokens) - N + 1)`
is `List.range (tokens.length + 1 - N)` (empty when the sentence is
short). -/
def addSentence (m : Model) (tokens : List Token) : Model :=
  (List.range (tokens.length + 1 - N)).foldl
    (fun acc i =>
      match (tokens.drop (i + (N - 1))).head? with
      | none => acc
      | some w => modelAdd acc ((tokens.drop i).take (N - 1)) w)
    m

/-- The source's `build_ngram_model(sentences)`. -/
def build_ngram_model (sentences : List (List Token)) : Model :=
  sentences.foldl addSentence []

/-- Selection `Counter.most_common(1)`: the entry with the maximum
count; among tied counts the earliest-inserted entry wins (stability of
`heapq.nlargest`).  Returns `none` on an empty counter, where Python's
`most_common(1)[0]` would raise `IndexError`. -/
def mostCommon1 : Counter → Option (Token × Nat)
  | [] => none
  | (w, n) :: rest =>
    match mostCommon1 rest with
    | none => some (w, n)
    | some (w1, n1) => if n < n1 then some (w1, n1) else some (w, n)

/-- Join with single spaces at the character level (`" ".join`). -/
def joinWords : List Token → List Char
  | [] => []
  | [w] => w
  | w :: ws => w ++ ' ' :: joinWords ws

/-- The greedy walk of `autocomplete`: up to `fuel` iterations, stopping
on a context miss; `none` from `mostCommon1` is the (unreachable for
built models) empty-counter case, on which this pure version stops while
Python raises — the state-passing version below records that error. -/
def autocompleteGo (m : Model) : Context → Nat → List Token
  | _, 0 => []
  | pfx, fuel + 1 =>
    match modelFind m pfx with
    | none => []
    | some counter =>
      match mostCommon1 counter with
      | none => []
      | some (w, _) => w :: autocompleteGo m (pfx.drop 1 ++ [w]) fuel

/-- The source's `autocomplete(model, user_input, max_words)`. -/
def autocomplete (m : Model) (user_input : String) (max_words : Nat) :
    String :=
  if (normalizeL user_input.data).length < N - 1 then ""
  else
    String.mk (joinWords (autocompleteGo m
      ((normalizeL user_input.data).drop
        ((normalizeL user_input.data).length - (N - 1)))
      max_words))

/-- Access `model[k]` on the `defaultdict`: returns the stored counter,
or inserts and returns an empty one when the key is absent. -/
def dget (m : Model) (k : Context) : Counter × Model :=
  match modelFind m k with
  | some c => (c, m)
  | none => ([], m ++ [(k, [])])

/-- State-passing version of the walk: threads the model through the
`defaultdict` accesses and records the `IndexError` that
`most_common(1)[0]` raises on an empty counter. -/
def autocompleteGoS (pfx : Context) (fuel : Nat) (m : Model) :
    Except String (List Token) × Model :=
  match fuel with
  | 0 => (Except.ok [], m)
  | fuel + 1 =>
    if modelContains m pfx then
      match dget m pfx with
      | (counter, m1) =>
        match mostCommon1 counter with
        | none => (Except.error "IndexError", m1)
        | some (w, _) =>
          match autocompleteGoS (pfx.drop 1 ++ [w]) fuel m1 with
          | (Except.ok ws, m2) => (Except.ok (w :: ws), m2)
          | (e, m2) => (e, m2)
    else (Except.ok [], m)

/-- State-passing version of `autocomplete`. -/
def autocompleteS (m : Model) (user_input : String) (max_words : Nat) :
    Except String String × Model :=
  if (normalizeL user_input.data).length < N - 1 then (Except.ok "", m)
  else
    match autocompleteGoS
        ((normalizeL user_input.data).drop
          ((normalizeL user_input.data).length - (N - 1)))
        max_words m with
    | (Except.ok ws, m2) => (Except.ok (String.mk (joinWords ws)), m2)
    | (Except.error e, m2) => (Except.error e, m2)

/-- The chat-history data source as seen by `load_sentences`. -/
inductive FileData where
  | missing
  | invalid
  | records (items : List (Option String))

/-- The source's `load_sentences(path)`: a missing file yields an empty
corpus; a file that `json.loads` cannot parse raises; otherwise each
record's message (`item.get("message", "")`) is normalized and the
sentence kept when it has at least `N` tokens. -/
def load_sentences : FileData → Except String (List (List Token))
  | FileData.missing => Except.ok []
  | FileData.invalid => Except.error "JSONDecodeError"
  | FileData.records items =>
    Except.ok
      ((items.map (fun r => normalizeL (r.getD "").data)).filter
        (fun t => N ≤ t.length))

/-- The source's `get_contextual_suggestion(chat_history_path,
user_input, max_words)`. -/
def get_contextual_suggestion (f : FileData) (user_input : String)
    (max_words : Nat) : Except String String :=
  match load_sentences f with
  | Except.error e => Except.error e
  | Except.ok sentences =>
    if sentences.isEmpty then Except.ok ""
    else
      Except.ok (autocomplete (build_ngram_model sentences) user_input
        max_words)

/-- Join with single spaces on strings (used to state re-normalization
idempotence). -/
def sjoin (l : List String) : String :=
  String.mk (joinWords (l.map String.data))

/-- Every counter stored in the model is nonempty (true of every built
model; rules out the `IndexError` path). -/
def countersNonempty (m : Model) : Bool :=
  m.all (fun e => !e.2.isEmpty)

/-- Every token stored in the model's counters is nonempty and free of
whitespace characters (true of every built model). -/
def cleanModel (m : Model) : Bool :=
  m.all (fun e => e.2.all (fun p => !p.1.isEmpty && p.1.all
    (fun c => !isSpaceChar c)))

/-- The spec's worked corpus: two chat messages about a review. -/
def demoItems : List (Option String) :=
  [some "I will review the document today",
   some "I will send the review today"]

/-- The sentences the worked corpus loads to. -/
def demoSentences : List (List Token) :=
  [normalizeL "I will review the document today".data,
   normalizeL "I will send the review today".data]

/-- The model built from the worked corpus. -/
def demoModel : Model :=
  build_ngram_model demoSentences

/-- The seed context of the worked query. -/
def demoCtx : Context :=
  ["i".data, "will".data]

/-- The counter stored at the seed context of the worked query. -/
def demoCounter : Counter :=
  [("review".data, 1), ("send".data, 1)]

/-! Helper lemmas: characters. -/

theorem dataMk (l : List Char) : (String.mk l).data = l := rfl

theorem isSpaceChar_space : isSpaceChar ' ' = true := rfl

theorem pyLower_fix (c : Char)
    (h : isLowerDigit c = true ∨ isSpaceChar c = true) : pyLower c = c := by
  simp only [isLowerDigit, isSpaceChar, Bool.or_eq_true, Bool.and_eq_true,
    decide_eq_true_eq] at h
  have hno : ¬ ((65 ≤ c.toNat && c.toNat ≤ 90) = true) := by
    simp only [Bool.and_eq_true, decide_eq_true_eq, not_and]
    omega
  simp only [pyLower, if_neg hno]

theorem keepChar_of (c : Char)
    (h : isLowerDigit c = true ∨ isSpaceChar c = true) : keepChar c = true := by
  rcases h with h | h <;> simp [keepChar, h]

theorem lowerDigit_not_space (c : Char) (h : isLowerDigit c = true) :
    isSpaceChar c = false := by
  simp only [isLowerDigit, Bool.or_eq_true, Bool.and_eq_true,
    decide_eq_true_eq] at h
  simp only [isSpaceChar, Bool.or_eq_true, decide_eq_true_eq]
  simp only [Bool.or_eq_false_iff, decide_eq_false_iff_not]
  omega

/-! Helper lemmas: generic lists. -/

theorem map_id_of {α : Type} (f : α → α) (l : List α)
    (h : ∀ a ∈ l, f a = a) : l.map f = l := by
  induction l with
  | nil => rfl
  | cons a t ih =>
    simp only [List.map_cons, h a (List.mem_cons_self a t)]
    rw [ih (fun x hx => h x (List.mem_cons_of_mem a hx))]

theorem filter_id_of {α : Type} (p : α → Bool) (l : List α)
    (h : ∀ a ∈ l, p a = true) : l.filter p = l := by
  induction l with
  | nil => rfl
  | cons a t ih =>
    rw [List.filter_cons, if_pos (h a (List.mem_cons_self a t))]
    rw [ih (fun x hx => h x (List.mem_cons_of_mem a hx))]

theorem foldl_preserve {α β : Type} (P : α → Prop) (step : α → β → α)
    (h : ∀ a b, P a → P (step a b)) :
    ∀ (l : List β) (a : α), P a → P (l.foldl step a) := by
  intro l
  induction l with
  | nil => intro a ha; exact ha
  | cons b t ih => intro a ha; exact ih _ (h a b ha)

/-! Helper lemmas: the tokenizer `words`. -/

theorem words_cons (c : Char) (cs : List Char) :
    words (c :: cs) =
      if isSpaceChar c then words cs else consHead c cs (words cs) := rfl

theorem words_spec : ∀ (l : List Char) (w : List Char), w ∈ words l →
    w ≠ [] ∧ ∀ c ∈ w, isSpaceChar c = false ∧ c ∈ l := by
  intro l
  induction l with
  | nil => intro w hw; simp [words] at hw
  | cons c cs ih =>
    intro w hw
    rw [words_cons] at hw
    by_cases hc : isSpaceChar c
    · rw [if_pos hc] at hw
      obtain ⟨h1, h2⟩ := ih w hw
      exact ⟨h1, fun x hx =>
        ⟨(h2 x hx).1, List.mem_cons_of_mem c (h2 x hx).2⟩⟩
    · rw [if_neg hc] at hw
      have hc' : isSpaceChar c = false := by
        simpa using hc
      cases cs with
      | nil =>
        simp only [consHead, List.mem_singleton] at hw
        subst hw
        refine ⟨by simp, ?_⟩
        intro x hx
        simp only [List.mem_singleton] at hx
        subst hx
        exact ⟨hc', List.mem_cons_self x []⟩
      | cons d cs2 =>
        by_cases hd : isSpaceChar d
        · rw [show consHead c (d :: cs2) (words (d :: cs2)) =
              [c] :: words (d :: cs2) by simp [consHead, hd]] at hw
          rcases List.mem_cons.mp hw with h1 | h2
          · subst h1
            refine ⟨by simp, ?_⟩
            intro x hx
            simp only [List.mem_singleton] at hx
            subst hx
            exact ⟨hc', List.mem_cons_self x _⟩
          · obtain ⟨h1, h2'⟩ := ih w h2
            exact ⟨h1, fun x hx =>
              ⟨(h2' x hx).1, List.mem_cons_of_mem c (h2' x hx).2⟩⟩
        · cases hws : words (d :: cs2) with
          | nil =>
            rw [show consHead c (d :: cs2) (words (d :: cs2)) = [[c]] by
              rw [hws]; simp [consHead, hd]] at hw
            simp only [List.mem_singleton] at hw
            subst hw
            refine ⟨by simp, ?_⟩
            intro x hx
            simp only [List.mem_singleton] at hx
            subst hx
            exact ⟨hc', List.mem_cons_self x _⟩
          | cons w0 ws0 =>
            rw [show consHead c (d :: cs2) (words (d :: cs2)) =
                (c :: w0) :: ws0 by rw [hws]; simp [consHead, hd]] at hw
            rcases List.mem_cons.mp hw with h1 | h2
            · subst h1
              have h0 := ih w0 (by rw [hws]; exact List.mem_cons_self _ _)
              refine ⟨by simp, ?_⟩
              intro x hx
              rcases List.mem_cons.mp hx with h3 | h3
              · subst h3
                exact ⟨hc', List.mem_cons_self x _⟩
              · exact ⟨(h0.2 x h3).1,
                  List.mem_cons_of_mem c (h0.2 x h3).2⟩
            · have h0 := ih w (by rw [hws]; exact List.mem_cons_of_mem _ h2)
              exact ⟨h0.1, fun x hx =>
                ⟨(h0.2 x hx).1, List.mem_cons_of_mem c (h0.2 x hx).2⟩⟩

theorem joinWords_one (w : Token) : joinWords [w] = w := rfl

theorem joinWords_cons2 (w x : Token) (ws : List Token) :
    joinWords (w :: x :: ws) = w ++ ' ' :: joinWords (x :: ws) := rfl

theorem words_space_cons (t : List Char) : words (' ' :: t) = words t := by
  rw [words_cons, if_pos isSpaceChar_space]

theorem words_append_sep (w : List Char) (t : List Char) (hne : w ≠ [])
    (hcl : ∀ c ∈ w, isSpaceChar c = false) :
    words (w ++ ' ' :: t) = w :: words t := by
  induction w with
  | nil => exact absurd rfl hne
  | cons c w' ih =>
    have hc : isSpaceChar c = false := hcl c (List.mem_cons_self c w')
    cases w' with
    | nil =>
      rw [List.cons_append, List.nil_append, words_cons,
        if_neg (by simp [hc])]
      simp only [consHead, if_pos isSpaceChar_space]
      rw [words_space_cons]
    | cons d w'' =>
      have hd : isSpaceChar d = false :=
        hcl d (List.mem_cons_of_mem c (List.mem_cons_self d w''))
      have ih' : words ((d :: w'') ++ ' ' :: t) = (d :: w'') :: words t :=
        ih (by simp) (fun x hx => hcl x (List.mem_cons_of_mem c hx))
      rw [List.cons_append, words_cons, if_neg (by simp [hc]),
        List.cons_append]
      rw [show (d :: w'') ++ ' ' :: t = d :: (w'' ++ ' ' :: t) from rfl]
        at ih'
    -- the tail of the argument starts with the non-space `d`, so
    -- `consHead` prepends `c` to the first word of the recursive result
      simp only [consHead, if_neg (by simp [hd] :
        ¬ isSpaceChar d = true)]
      rw [show words (d :: (w'' ++ ' ' :: t)) = (d :: w'') :: words t
        from ih']

theorem words_of_clean (w : List Char) (hne : w ≠ [])
    (hcl : ∀ c ∈ w, isSpaceChar c = false) : words w = [w] := by
  induction w with
  | nil => exact absurd rfl hne
  | cons c w' ih =>
    have hc : isSpaceChar c = false := hcl c (List.mem_cons_self c w')
    cases w' with
    | nil => rw [words_cons, if_neg (by simp [hc])]; rfl
    | cons d w'' =>
      have hd : isSpaceChar d = false :=
        hcl d (List.mem_cons_of_mem c (List.mem_cons_self d w''))
      have ih' : words (d :: w'') = [d :: w''] :=
        ih (by simp) (fun x hx => hcl x (List.mem_cons_of_mem c hx))
      rw [words_cons, if_neg (by simp [hc])]
      simp only [consHead, if_neg (by simp [hd] : ¬ isSpaceChar d = true)]
      rw [ih']

theorem words_joinWords (ws : List Token)
    (h : ∀ w ∈ ws, w ≠ [] ∧ ∀ c ∈ w, isSpaceChar c = false) :
    words (joinWords ws) = ws := by
  induction ws with
  | nil => rfl
  | cons w ws' ih =>
    cases ws' with
    | nil =>
      rw [joinWords_one]
      exact words_of_clean w (h w (List.mem_cons_self w [])).1
        (h w (List.mem_cons_self w [])).2
    | cons x ws'' =>
      rw [joinWords_cons2]
      rw [words_append_sep w _ (h w (List.mem_cons_self w _)).1
        (h w (List.mem_cons_self w _)).2]
      rw [ih (fun u hu => h u (List.mem_cons_of_mem w hu))]

theorem joinWords_chars (ws : List Token) :
    ∀ c ∈ joinWords ws, (∃ w ∈ ws, c ∈ w) ∨ c = ' ' := by
  induction ws with
  | nil => intro c hc; simp [joinWords] at hc
  | cons w ws' ih =>
    cases ws' with
    | nil =>
      intro c hc
      rw [joinWords_one] at hc
      exact Or.inl ⟨w, List.mem_cons_self w [], hc⟩
    | cons x ws'' =>
      intro c hc
      rw [joinWords_cons2] at hc
      rcases List.mem_append.mp hc with h1 | h2
      · exact Or.inl ⟨w, List.mem_cons_self w _, h1⟩
      · rcases List.mem_cons.mp h2 with h3 | h3
        · exact Or.inr h3
        · rcases ih c h3 with ⟨u, hu, hcu⟩ | h4
          · exact Or.inl ⟨u, List.mem_cons_of_mem w hu, hcu⟩
          · exact Or.inr h4

/-! Helper lemmas: normalization. -/

theorem normalizeL_clean (l : List Char) (w : Token)
    (hw : w ∈ normalizeL l) :
    w ≠ [] ∧ ∀ c ∈ w, isLowerDigit c = true := by
  have hs := words_spec _ w hw
  refine ⟨hs.1, ?_⟩
  intro c hc
  have h2 := hs.2 c hc
  have hk : keepChar c = true := (List.mem_filter.mp h2.2).2
  simp only [keepChar, Bool.or_eq_true] at hk
  rcases hk with h | h
  · exact h
  · rw [h2.1] at h
    exact absurd h (by simp)

theorem normalizeL_join (ws : List Token)
    (h : ∀ w ∈ ws, w ≠ [] ∧ ∀ c ∈ w, isLowerDigit c = true) :
    normalizeL (joinWords ws) = ws := by
  unfold normalizeL
  have hchars : ∀ c ∈ joinWords ws, isLowerDigit c = true ∨ c = ' ' := by
    intro c hc
    rcases joinWords_chars ws c hc with ⟨w, hw, hcw⟩ | h1
    · exact Or.inl ((h w hw).2 c hcw)
    · exact Or.inr h1
  have hchars' : ∀ c ∈ joinWords ws,
      isLowerDigit c = true ∨ isSpaceChar c = true := by
    intro c hc
    rcases hchars c hc with h1 | h1
    · exact Or.inl h1
    · exact Or.inr (h1 ▸ isSpaceChar_space)
  rw [map_id_of pyLower _ (fun c hc => pyLower_fix c (hchars' c hc))]
  rw [filter_id_of keepChar _ (fun c hc => keepChar_of c (hchars' c hc))]
  exact words_joinWords ws (fun w hw =>
    ⟨(h w hw).1, fun c hc => lowerDigit_not_space c ((h w hw).2 c hc)⟩)

/-! Helper lemmas: counters and the model. -/

theorem mostCommon1_cons (w : Token) (n : Nat) (rest : Counter) :
    mostCommon1 ((w, n) :: rest) =
      match mostCommon1 rest with
      | none => some (w, n)
      | some (w1, n1) =>
        if n < n1 then some (w1, n1) else some (w, n) := rfl

theorem mostCommon1_spec : ∀ (c : Counter), c ≠ [] →
    ∃ w n pre post,
      mostCommon1 c = some (w, n) ∧
      c = pre ++ (w, n) :: post ∧
      (∀ p ∈ pre, p.2 < n) ∧
      (∀ p ∈ c, p.2 ≤ n) := by
  intro c
  induction c with
  | nil => intro h; exact absurd rfl h
  | cons hd tl ih =>
    intro _
    obtain ⟨w0, n0⟩ := hd
    cases tl with
    | nil =>
      refine ⟨w0, n0, [], [], rfl, rfl, by simp, ?_⟩
      intro p hp
      simp only [List.mem_singleton] at hp
      subst hp
      exact Nat.le_refl n0
    | cons a b =>
      obtain ⟨w1, n1, pre1, post1, h1, h2, h3, h4⟩ := ih (by simp)
      by_cases hlt : n0 < n1
      · refine ⟨w1, n1, (w0, n0) :: pre1, post1, ?_, ?_, ?_, ?_⟩
        · rw [mostCommon1_cons, h1]
          simp [hlt]
        · rw [List.cons_append, h2]
        · intro p hp
          rcases List.mem_cons.mp hp with h5 | h5
          · subst h5; exact hlt
          · exact h3 p h5
        · intro p hp
          rcases List.mem_cons.mp hp with h5 | h5
          · subst h5; exact Nat.le_of_lt hlt
          · exact h4 p h5
      · refine ⟨w0, n0, [], a :: b, ?_, rfl, by simp, ?_⟩
        · rw [mostCommon1_cons, h1]
          simp [hlt]
        · intro p hp
          rcases List.mem_cons.mp hp with h5 | h5
          · subst h5; exact Nat.le_refl n0
          · exact Nat.le_trans (h4 p h5) (Nat.le_of_not_lt hlt)

theorem mostCommon1_mem : ∀ (c : Counter) (p : Token × Nat),
    mostCommon1 c = some p → p ∈ c := by
  intro c
  induction c with
  | nil => intro p h; simp [mostCommon1] at h
  | cons hd tl ih =>
    intro p h
    obtain ⟨w0, n0⟩ := hd
    rw [mostCommon1_cons] at h
    cases h1 : mostCommon1 tl with
    | none =>
      rw [h1] at h
      simp only [Option.some.injEq] at h
      subst h
      exact List.mem_cons_self _ _
    | some q =>
      rw [h1] at h
      obtain ⟨w1, n1⟩ := q
      by_cases hlt : n0 < n1
      · simp only [hlt, if_true, Option.some.injEq] at h
        subst h
        exact List.mem_cons_of_mem _ (ih _ h1)
      · simp only [hlt, if_false, Option.some.injEq] at h
        subst h
        exact List.mem_cons_self _ _

theorem mostCommon1_isSome (c : Counter) (h : c ≠ []) :
    (mostCommon1 c).isSome = true := by
  obtain ⟨w, n, pre, post, h1, _⟩ := mostCommon1_spec c h
  rw [h1]
  rfl

theorem counterIncr_ne_nil (c : Counter) (w : Token) :
    counterIncr c w ≠ [] := by
  cases c with
  | nil => simp [counterIncr]
  | cons hd tl =>
    obtain ⟨w0, n⟩ := hd
    simp only [counterIncr]
    by_cases h : w0 = w <;> simp [h]

theorem modelAdd_nonempty (m : Model) (k : Context) (w : Token)
    (h : ∀ e ∈ m, e.2 ≠ []) : ∀ e ∈ modelAdd m k w, e.2 ≠ [] := by
  induction m with
  | nil =>
    intro e he
    simp only [modelAdd, List.mem_singleton] at he
    subst he
    simp
  | cons hd tl ih =>
    obtain ⟨k0, c0⟩ := hd
    intro e he
    simp only [modelAdd] at he
    by_cases hk : k0 = k
    · rw [if_pos hk] at he
      rcases List.mem_cons.mp he with h1 | h1
      · subst h1; exact counterIncr_ne_nil c0 w
      · exact h e (List.mem_cons_of_mem _ h1)
    · rw [if_neg hk] at he
      rcases List.mem_cons.mp he with h1 | h1
      · subst h1; exact h (k0, c0) (List.mem_cons_self _ _)
      · exact ih (fun x hx => h x (List.mem_cons_of_mem _ hx)) e h1

theorem addSentence_nonempty (m : Model) (tokens : List Token)
    (h : ∀ e ∈ m, e.2 ≠ []) : ∀ e ∈ addSentence m tokens, e.2 ≠ [] := by
  unfold addSentence
  refine foldl_preserve (fun mm : Model => ∀ e ∈ mm, e.2 ≠ []) _ ?_ _ m h
  intro a i ha
  cases hh : (tokens.drop (i + (N - 1))).head? with
  | none => simpa [hh] using ha
  | some w =>
    simp only [hh]
    exact modelAdd_nonempty a _ w ha

theorem build_counters_nonempty (sentences : List (List Token)) :
    ∀ e ∈ build_ngram_model sentences, e.2 ≠ [] := by
  unfold build_ngram_model
  refine foldl_preserve (fun mm : Model => ∀ e ∈ mm, e.2 ≠ []) _ ?_ _ []
    (by simp)
  intro a tokens ha
  exact addSentence_nonempty a tokens ha

theorem modelFind_mem (m : Model) (k : Context) (c : Counter)
    (h : modelFind m k = some c) : (k, c) ∈ m := by
  induction m with
  | nil => simp [modelFind] at h
  | cons hd tl ih =>
    obtain ⟨k0, c0⟩ := hd
    simp only [modelFind] at h
    by_cases hk : k0 = k
    · rw [if_pos hk] at h
      simp only [Option.some.injEq] at h
      subst hk
      subst h
      exact List.mem_cons_self _ _
    · rw [if_neg hk] at h
      exact List.mem_cons_of_mem _ (ih h)

theorem countersNonempty_iff (m : Model) :
    countersNonempty m = true ↔ ∀ e ∈ m, e.2 ≠ [] := by
  simp only [countersNonempty, List.all_eq_true, Bool.not_eq_true']
  constructor
  · intro h e he
    have := h e he
    simpa [List.isEmpty_iff] using this
  · intro h e he
    simpa [List.isEmpty_iff] using h e he

/-! Helper lemmas: the suggestion walk. -/

theorem autocompleteGo_succ (m : Model) (pfx : Context) (f : Nat) :
    autocompleteGo m pfx (f + 1) =
      match modelFind m pfx with
      | none => []
      | some counter =>
        match mostCommon1 counter with
        | none => []
        | some (w, _) => w :: autocompleteGo m (pfx.drop 1 ++ [w]) f := rfl

theorem autocompleteGoS_succ (pfx : Context) (f : Nat) (m : Model) :
    autocompleteGoS pfx (f + 1) m =
      if modelContains m pfx then
        match dget m pfx with
        | (counter, m1) =>
          match mostCommon1 counter with
          | none => (Except.error "IndexError", m1)
          | some (w, _) =>
            match autocompleteGoS (pfx.drop 1 ++ [w]) f m1 with
            | (Except.ok ws, m2) => (Except.ok (w :: ws), m2)
            | (e, m2) => (e, m2)
      else (Except.ok [], m) := rfl

theorem autocompleteGo_length (m : Model) :
    ∀ (fuel : Nat) (pfx : Context),
      (autocompleteGo m pfx fuel).length ≤ fuel := by
  intro fuel
  induction fuel with
  | zero => intro pfx; simp [autocompleteGo]
  | succ f ih =>
    intro pfx
    cases hf : modelFind m pfx with
    | none => simp [autocompleteGo_succ, hf]
    | some counter =>
      cases hc : mostCommon1 counter with
      | none => simp [autocompleteGo_succ, hf, hc]
      | some p =>
        obtain ⟨w, n⟩ := p
        have hrec := ih (pfx.drop 1 ++ [w])
        simp only [autocompleteGo_succ, hf, hc, List.length_cons]
        exact Nat.succ_le_succ hrec

theorem cleanModel_spec (m : Model) (hm : cleanModel m = true) :
    ∀ e ∈ m, ∀ p ∈ e.2,
      p.1 ≠ [] ∧ ∀ c ∈ p.1, isSpaceChar c = false := by
  simp only [cleanModel, List.all_eq_true, Bool.and_eq_true,
    Bool.not_eq_true'] at hm
  intro e he p hp
  obtain ⟨h1, h2⟩ := hm e he p hp
  refine ⟨by simpa [List.isEmpty_iff] using h1, ?_⟩
  intro c hc
  simpa using h2 c hc

theorem autocompleteGo_clean (m : Model) (hm : cleanModel m = true) :
    ∀ (fuel : Nat) (pfx : Context) (w : Token),
      w ∈ autocompleteGo m pfx fuel →
      w ≠ [] ∧ ∀ c ∈ w, isSpaceChar c = false := by
  intro fuel
  induction fuel with
  | zero => intro pfx w hw; simp [autocompleteGo] at hw
  | succ f ih =>
    intro pfx w hw
    cases hf : modelFind m pfx with
    | none => simp [autocompleteGo_succ, hf] at hw
    | some counter =>
      cases hc : mostCommon1 counter with
      | none => simp [autocompleteGo_succ, hf, hc] at hw
      | some p =>
        obtain ⟨w0, n⟩ := p
        simp only [autocompleteGo_succ, hf, hc] at hw
        rcases List.mem_cons.mp hw with h1 | h1
        · subst h1
          exact cleanModel_spec m hm (pfx, counter)
            (modelFind_mem m pfx counter hf) (w, n)
            (mostCommon1_mem counter (w, n) hc)
        · exact ih (pfx.drop 1 ++ [w0]) w h1

theorem autocompleteGoS_model :
    ∀ (fuel : Nat) (pfx : Context) (m : Model),
      (autocompleteGoS pfx fuel m).2 = m := by
  intro fuel
  induction fuel with
  | zero => intro pfx m; rfl
  | succ f ih =>
    intro pfx m
    cases hf : modelFind m pfx with
    | none =>
      have hc : modelContains m pfx = false := by
        simp [modelContains, hf]
      simp [autocompleteGoS_succ, hc]
    | some counter =>
      have hcon : modelContains m pfx = true := by
        simp [modelContains, hf]
      have hd : dget m pfx = (counter, m) := by simp [dget, hf]
      cases hmc : mostCommon1 counter with
      | none => simp [autocompleteGoS_succ, hcon, hd, hmc]
      | some p =>
        obtain ⟨w, n⟩ := p
        have hrec := ih (pfx.drop 1 ++ [w]) m
        simp only [autocompleteGoS_succ, hcon, hd, hmc, if_true]
        cases hr : autocompleteGoS (pfx.drop 1 ++ [w]) f m with
        | mk r m2 =>
          rw [hr] at hrec
          simp only at hrec
          subst hrec
          cases r with
          | ok ws => simp
          | error e => simp

theorem autocompleteGoS_ok :
    ∀ (fuel : Nat) (pfx : Context) (m : Model),
      (∀ e ∈ m, e.2 ≠ []) →
      autocompleteGoS pfx fuel m =
        (Except.ok (autocompleteGo m pfx fuel), m) := by
  intro fuel
  induction fuel with
  | zero => intro pfx m _; rfl
  | succ f ih =>
    intro pfx m h
    cases hf : modelFind m pfx with
    | none =>
      have hc : modelContains m pfx = false := by
        simp [modelContains, hf]
      simp [autocompleteGoS_succ, autocompleteGo_succ, hc, hf]
    | some counter =>
      have hcon : modelContains m pfx = true := by
        simp [modelContains, hf]
      have hd : dget m pfx = (counter, m) := by simp [dget, hf]
      have hne : counter ≠ [] :=
        h (pfx, counter) (modelFind_mem m pfx counter hf)
      cases hmc : mostCommon1 counter with
      | none =>
        exfalso
        have hs := mostCommon1_isSome counter hne
        rw [hmc] at hs
        simp at hs
      | some p =>
        obtain ⟨w, n⟩ := p
        have hrec := ih (pfx.drop 1 ++ [w]) m h
        simp only [autocompleteGoS_succ, autocompleteGo_succ, hcon, hd,
          hmc, if_true, hrec]
        simp [hf, hmc]

/-! Helper lemmas: assembly of `autocomplete` and the loader. -/

theorem autocompleteS_frame (m : Model) (input : String) (mw : Nat) :
    (autocompleteS m input mw).2 = m := by
  unfold autocompleteS
  by_cases hlen : (normalizeL input.data).length < N - 1
  · rw [if_pos hlen]
  · rw [if_neg hlen]
    have hframe := autocompleteGoS_model mw
      ((normalizeL input.data).drop
        ((normalizeL input.data).length - (N - 1))) m
    cases hr : autocompleteGoS
        ((normalizeL input.data).drop
          ((normalizeL input.data).length - (N - 1))) mw m with
    | mk r m2 =>
      rw [hr] at hframe
      simp only at hframe
      subst hframe
      cases r with
      | ok ws => simp
      | error e => simp

theorem autocompleteS_pure (m : Model) (input : String) (mw : Nat)
    (h : countersNonempty m = true) :
    autocompleteS m input mw = (Except.ok (autocomplete m input mw), m) := by
  unfold autocompleteS autocomplete
  by_cases hlen : (normalizeL input.data).length < N - 1
  · rw [if_pos hlen, if_pos hlen]
  · rw [if_neg hlen, if_neg hlen]
    rw [autocompleteGoS_ok mw _ m ((countersNonempty_iff m).mp h)]

theorem load_records_all_short (items : List (Option String))
    (h : ∀ r ∈ items, (normalizeL (r.getD "").data).length < N) :
    load_sentences (FileData.records items) = Except.ok [] := by
  simp only [load_sentences, Except.ok.injEq]
  rw [List.filter_eq_nil_iff]
  intro t ht
  simp only [List.mem_map] at ht
  obtain ⟨r, hr, rfl⟩ := ht
  have := h r hr
  simp only [decide_eq_true_eq]
  omega

theorem get_records_empty (items : List (Option String)) (input : String)
    (mw : Nat)
    (h : ∀ r ∈ items, (normalizeL (r.getD "").data).length < N) :
    get_contextual_suggestion (FileData.records items) input mw =
      Except.ok "" := by
  unfold get_contextual_suggestion
  rw [load_records_all_short items h]
  rfl

/-! Claim theorems. -/

/-- C1 (counterexample): the claim says that a data source whose file
exists but cannot be parsed is treated as an empty corpus and yields
`Except.ok ""`; on the concrete unparseable source and the concrete
input `"I will"` the operation instead propagates the JSON decode error
(`json.loads` raises — there is no handler in `load_sentences`). -/
theorem getSuggestion_invalid_json_raises :
    get_contextual_suggestion FileData.invalid "I will" 10 =
      Except.error "JSONDecodeError" ∧
    ¬ get_contextual_suggestion FileData.invalid "I will" 10 =
        Except.ok "" := by
  refine ⟨rfl, ?_⟩
  intro h
  rw [show get_contextual_suggestion FileData.invalid "I will" 10 =
      Except.error "JSONDecodeError" from rfl] at h
  exact Except.noConfusion h

/-- C1 (amended): for a data source whose file does not exist,
`get_contextual_suggestion` does not raise and returns the empty string
for every user input and `max_words`; when the file exists but its
content cannot be parsed as the expected JSON, the parse error
propagates to the caller instead of the corpus being treated as
empty. -/
theorem getSuggestion_missing_vs_invalid :
    (∀ (input : String) (max_words : Nat),
      get_contextual_suggestion FileData.missing input max_words =
        Except.ok "") ∧
    (∀ (input : String) (max_words : Nat),
      get_contextual_suggestion FileData.invalid input max_words =
        Except.error "JSONDecodeError") :=
  ⟨fun _ _ => rfl, fun _ _ => rfl⟩

/-- C2: on the corpus of exactly the two messages
`"I will review the document today"` and `"I will send the review
today"` (in that order), with `N = 3`, the query `"I will"` with
`max_words = 5` returns exactly `"review the document today"`, both
through the public operation and through
`autocomplete ∘ build_ngram_model` directly. -/
theorem getSuggestion_demo_corpus :
    get_contextual_suggestion (FileData.records demoItems) "I will" 5 =
      Except.ok "review the document today" ∧
    autocomplete (build_ngram_model demoSentences) "I will" 5 =
      "review the document today" :=
  ⟨rfl, rfl⟩

/-- C3: in every model produced by `build_ngram_model`, at every context
present in it, the next token that the walk of `autocomplete` selects
(via `mostCommon1`) has the maximum count among the context's
next-tokens, and it is the first entry of the counter that attains that
maximum — counters are insertion-ordered, so the first entry attaining
the maximum is the next-token first recorded during the counting
pass. -/
theorem mostCommon_selects_max_first_recorded
    (sentences : List (List Token)) (ctx : Context) (counter : Counter)
    (h : modelFind (build_ngram_model sentences) ctx = some counter) :
    ∃ w n pre post,
      mostCommon1 counter = some (w, n) ∧
      counter = pre ++ (w, n) :: post ∧
      (∀ p ∈ pre, p.2 < n) ∧
      (∀ p ∈ counter, p.2 ≤ n) :=
  mostCommon1_spec counter
    (build_counters_nonempty sentences (ctx, counter)
      (modelFind_mem _ ctx counter h))

/-- C3 witness: instantiated at the worked corpus and the context
`("i", "will")`, whose counter records `"review"` (first) and `"send"`
tied at count 1. -/
theorem mostCommon_selects_max_first_recorded_witness :
    modelFind (build_ngram_model demoSentences) demoCtx =
      some demoCounter ∧
    ∃ w n pre post,
      mostCommon1 demoCounter = some (w, n) ∧
      demoCounter = pre ++ (w, n) :: post ∧
      (∀ p ∈ pre, p.2 < n) ∧
      (∀ p ∈ demoCounter, p.2 ≤ n) :=
  ⟨by decide,
   mostCommon_selects_max_first_recorded demoSentences demoCtx demoCounter
     (by decide)⟩

/-- C4: whenever the user input normalizes to fewer than `N - 1 = 2`
tokens, `autocomplete` returns the empty string for every model and
every `max_words`, and (state-passing version) this path performs no
model access and raises nothing. -/
theorem autocomplete_short_input_empty (m : Model) (input : String)
    (max_words : Nat)
    (h : (normalizeL input.data).length < N - 1) :
    autocomplete m input max_words = "" ∧
    autocompleteS m input max_words = (Except.ok "", m) := by
  constructor
  · unfold autocomplete
    rw [if_pos h]
  · unfold autocompleteS
    rw [if_pos h]

/-- C4 witness: the one-token input `"hi"` against the worked model. -/
theorem autocomplete_short_input_empty_witness :
    (normalizeL ("hi" : String).data).length < N - 1 ∧
    (autocomplete demoModel "hi" 10 = "" ∧
      autocompleteS demoModel "hi" 10 = (Except.ok "", demoModel)) :=
  ⟨by decide, autocomplete_short_input_empty demoModel "hi" 10 (by decide)⟩

/-- C5: when every record of the corpus normalizes to fewer than
`N = 3` tokens (in particular when there are no records at all), the
operation returns the empty string for every user input and
`max_words`. -/
theorem getSuggestion_empty_corpus (items : List (Option String))
    (input : String) (max_words : Nat)
    (h : ∀ r ∈ items, (normalizeL (r.getD "").data).length < N) :
    get_contextual_suggestion (FileData.records items) input max_words =
      Except.ok "" :=
  get_records_empty items input max_words h

/-- C5 witness: the spec's scenario — a single message `"ok"` (one
token, shorter than `N`), query `"lets talk"`. -/
theorem getSuggestion_empty_corpus_witness :
    (∀ r ∈ ([some "ok"] : List (Option String)),
      (normalizeL (r.getD "").data).length < N) ∧
    get_contextual_suggestion (FileData.records [some "ok"]) "lets talk"
      10 = Except.ok "" :=
  ⟨by decide,
   getSuggestion_empty_corpus [some "ok"] "lets talk" 10 (by decide)⟩

/-- C6: `autocomplete` is a total function (the walk is fuel-bounded by
`max_words`, so it terminates even when a context reappears), and for
every model whose stored tokens are genuine tokens (nonempty,
whitespace-free — true of every model the program builds), the returned
string splits into at most `max_words` tokens. -/
theorem autocomplete_word_bound (m : Model) (input : String)
    (max_words : Nat) (hm : cleanModel m = true) :
    (words (autocomplete m input max_words).data).length ≤ max_words := by
  unfold autocomplete
  by_cases hlen : (normalizeL input.data).length < N - 1
  · rw [if_pos hlen]
    have h0 : (words ("".data)).length = 0 := rfl
    omega
  · rw [if_neg hlen]
    rw [dataMk]
    rw [words_joinWords _
      (fun w hw => autocompleteGo_clean m hm max_words _ w hw)]
    exact autocompleteGo_length m max_words _

/-- C6 witness: the worked model, query `"I will"`, `max_words = 3`. -/
theorem autocomplete_word_bound_witness :
    cleanModel demoModel = true ∧
    (words (autocomplete demoModel "I will" 3).data).length ≤ 3 :=
  ⟨by decide, autocomplete_word_bound demoModel "I will" 3 (by decide)⟩

/-- C7: the walk never mutates the model and never raises on a missing
context: every model the program builds has only nonempty counters; the
state-passing run always hands back the model unchanged (the
`defaultdict` default is never inserted, because the `in` test guards
every access); and on models with nonempty counters (hence on every
built model) the run returns `Except.ok` of exactly the pure result. -/
theorem autocomplete_pure_no_mutation :
    (∀ sentences : List (List Token),
      countersNonempty (build_ngram_model sentences) = true) ∧
    ∀ (m : Model) (input : String) (max_words : Nat),
      (autocompleteS m input max_words).2 = m ∧
      (countersNonempty m = true →
        autocompleteS m input max_words =
          (Except.ok (autocomplete m input max_words), m)) :=
  ⟨fun sentences =>
    (countersNonempty_iff _).mpr (build_counters_nonempty sentences),
   fun m input mw =>
    ⟨autocompleteS_frame m input mw,
     fun h => autocompleteS_pure m input mw h⟩⟩

/-- C7 witness: the worked model and query. -/
theorem autocomplete_pure_no_mutation_witness :
    countersNonempty demoModel = true ∧
    (autocompleteS demoModel "I will" 5).2 = demoModel ∧
    autocompleteS demoModel "I will" 5 =
      (Except.ok (autocomplete demoModel "I will" 5), demoModel) :=
  ⟨by decide,
   (autocomplete_pure_no_mutation.2 demoModel "I will" 5).1,
   (autocomplete_pure_no_mutation.2 demoModel "I will" 5).2 (by decide)⟩

/-- C8: every token produced by `normalize` is a nonempty string of
lowercase ASCII letters and digits only; the empty string normalizes to
the empty sequence; and `"I WILL  review!!"` tokenizes exactly like
`"i will review"`, to `["i", "will", "review"]`. -/
theorem normalize_token_shape :
    (∀ (s : String) (t : String), t ∈ normalize s →
      t ≠ "" ∧ ∀ c ∈ t.data, isLowerDigit c = true) ∧
    normalize "" = [] ∧
    normalize "I WILL  review!!" = normalize "i will review" ∧
    normalize "i will review" = ["i", "will", "review"] := by
  refine ⟨?_, rfl, by decide, by decide⟩
  intro s t ht
  simp only [normalize, List.mem_map] at ht
  obtain ⟨w, hw, rfl⟩ := ht
  have hcl := normalizeL_clean s.data w hw
  constructor
  · intro heq
    exact hcl.1 (congrArg String.data heq)
  · intro c hc
    exact hcl.2 c hc

/-- C8 witness: the token `"i"` of `normalize "I WILL  review!!"`. -/
theorem normalize_token_shape_witness :
    ("i" ∈ normalize "I WILL  review!!") ∧
    ("i" ≠ "" ∧ ∀ c ∈ ("i" : String).data, isLowerDigit c = true) :=
  ⟨by decide, normalize_token_shape.1 "I WILL  review!!" "i" (by decide)⟩

/-- C9: tokenization is idempotent under re-normalization — joining the
tokens of `normalize s` with single spaces and normalizing again yields
exactly `normalize s`. -/
theorem normalize_join_idempotent (s : String) :
    normalize (sjoin (normalize s)) = normalize s := by
  simp only [normalize, sjoin]
  rw [List.map_map]
  rw [map_id_of (String.data ∘ fun w => String.mk w) _ (fun a _ => rfl)]
  rw [dataMk]
  rw [normalizeL_join (normalizeL s.data)
    (fun w hw => normalizeL_clean s.data w hw)]

/-- C10: a record lacking the `"message"` key is treated as having empty
text — it contributes no sentence and raises nothing — so a corpus whose
records all lack the field behaves exactly like an empty corpus and
yields the empty suggestion. -/
theorem missing_message_skipped (items : List (Option String))
    (input : String) (max_words : Nat) :
    load_sentences (FileData.records ((none : Option String) :: items)) =
      load_sentences (FileData.records items) ∧
    ((∀ r ∈ items, r = none) →
      get_contextual_suggestion (FileData.records items) input max_words =
        Except.ok "") := by
  constructor
  · rfl
  · intro hall
    apply get_records_empty
    intro r hr
    have hr' := hall r hr
    subst hr'
    decide

/-- C10 witness: a corpus of one record lacking the message field. -/
theorem missing_message_skipped_witness :
    (load_sentences (FileData.records ((none : Option String) :: [none])) =
      load_sentences (FileData.records [none])) ∧
    (∀ r ∈ ([none] : List (Option String)), r = none) ∧
    get_contextual_suggestion (FileData.records [none]) "hello there" 10 =
      Except.ok "" :=
  ⟨(missing_message_skipped [none] "hello there" 10).1,
   by decide,
   (missing_message_skipped [none] "hello there" 10).2 (by decide)⟩

end Rephrase
